import Mathlib

/-!
Shallow embedding of the saved-data replay sampling backend of
`quri_parts/qiskit/backend/job_models.py`, together with the spec-modelled
external collaborators (`shot_distributer`, `job_processor`) that live in the
repository's `.utils` module, which is not part of the sources at hand.

Python `dict`s are modelled as association lists preserving insertion order,
with first-match lookup and in-place value update (Python dict semantics).
Python `int`s are modelled as `Int`; replay-cursor positions (list indices)
are modelled as `Nat` (they start at 0 and are only incremented).
The qiskit circuit converter / transpiler is an external deterministic
collaborator; a `Sample` call is therefore modelled by the canonical qasm
string of its transpiled circuit, and the shot distributor by the chunk list
it returns for the call.
-/

namespace ReplayBackend

/-- Lookup key of the saved-data corpus: `(qasm_str, n_shots)`,
mirroring `SavedDataType: dict[tuple[str, int], list[...]]`. -/
abbrev Key := String × Int

/-- Class `QiskitSavedDataSamplingResult`: raw data in `qiskit_result.get_counts()`
format, a dict from bitstring to occurrence count. -/
structure QiskitSavedDataSamplingResult where
  raw_data : List (String × Int)
deriving DecidableEq, Repr

/-- Python `int(s, 2)` on a 0/1 bitstring, reading its characters from the
most significant end. -/
def binToNat (s : String) : Nat :=
  s.data.foldl (fun a c => 2 * a + (if c = '1' then 1 else 0)) 0

/-- Python dict assignment `d[k] = v`: update the entry in place when `k` is
present (a dict holds each key once, so updating the first match is exact),
append a fresh entry otherwise. -/
def dictInsert {α β : Type} [DecidableEq α] (d : List (α × β)) (k : α) (v : β) :
    List (α × β) :=
  match d with
  | [] => [(k, v)]
  | p :: rest => if p.1 = k then (k, v) :: rest else p :: dictInsert rest k v

/-- Property `QiskitSavedDataSamplingResult.counts`: re-key `raw_data` by reading each
bitstring as a base-2 integer, building a fresh dict entry by entry. -/
def QiskitSavedDataSamplingResult.counts (r : QiskitSavedDataSamplingResult) :
    List (Nat × Int) :=
  r.raw_data.foldl (fun m p => dictInsert m (binToNat p.1) p.2) []

/-- Class `QiskitSavedDataSamplingJob`. -/
structure QiskitSavedDataSamplingJob where
  circuit_str : String
  n_shots : Int
  saved_result : QiskitSavedDataSamplingResult
deriving DecidableEq, Repr

/-- Method `QiskitSavedDataSamplingJob.result`. -/
def QiskitSavedDataSamplingJob.result (j : QiskitSavedDataSamplingJob) :
    QiskitSavedDataSamplingResult :=
  j.saved_result

/-- Key under which a job is grouped by `_load_data`. -/
def QiskitSavedDataSamplingJob.key (j : QiskitSavedDataSamplingJob) : Key :=
  (j.circuit_str, j.n_shots)

/-- The grouped corpus `SavedDataType`. -/
abbrev SavedDataType := List (Key × List QiskitSavedDataSamplingJob)

/-- Replay cursor map `_replay_memory`. -/
abbrev ReplayMemory := List (Key × Nat)

/-- Python dict lookup `d[k]` (each key occurs once in a dict; first match). -/
def lookupKey {α : Type} (d : List (Key × α)) (k : Key) : Option α :=
  match d with
  | [] => none
  | p :: rest => if p.1 = k then some p.2 else lookupKey rest k

/-- Grouping `defaultdict(list)` append: `saved_data[k].append(j)`. -/
def appendAt (d : SavedDataType) (k : Key) (j : QiskitSavedDataSamplingJob) :
    SavedDataType :=
  match d with
  | [] => [(k, [j])]
  | p :: rest =>
    if p.1 = k then (p.1, p.2 ++ [j]) :: rest else p :: appendAt rest k j

/-- Method `QiskitSavedDataSamplingBackend._load_data`: parse the corpus document (a
sequence of saved jobs; the JSON codec itself is the external `json` module)
and group it by `(circuit_str, n_shots)` with a `defaultdict(list)`. -/
def loadData (docs : List QiskitSavedDataSamplingJob) : SavedDataType :=
  docs.foldl (fun d j => appendAt d j.key j) []

/-- Function `convert_saved_jobs_sequence_to_str` serializes a sequence of saved jobs;
exporting the loaded (grouped) corpus serializes its records in grouped
order, i.e. the concatenation of the per-key record sequences. -/
def exportData (d : SavedDataType) : List QiskitSavedDataSamplingJob :=
  (d.map Prod.snd).flatten

/-- Statement `_replay_memory[key] += 1`: in-place increment of an existing entry
(each key occurs once in the cursor dict). -/
def bumpKey (mem : ReplayMemory) (k : Key) : ReplayMemory :=
  match mem with
  | [] => []
  | p :: rest => if p.1 = k then (p.1, p.2 + 1) :: rest else p :: bumpKey rest k

/-- Errors raised by `sample`.  `invalidArgument` is the
`ValueError("n_shots should be a positive integer.")`, `missingExperiment`
the `KeyError("This experiment is not in the saved data.")`,
`replayExhausted` the `ValueError("Replay of this experiment is over")`, and
`memKeyError` the (unreachable from a well-formed construction) `KeyError`
of reading `_replay_memory[key]` for a key absent from the cursor map. -/
inductive SampleError where
  | invalidArgument
  | missingExperiment
  | replayExhausted
  | memKeyError
deriving DecidableEq, Repr

/-- Mutable state of a `QiskitSavedDataSamplingBackend`: the corpus
`_saved_data` and the cursor map `_replay_memory`. -/
structure BackendState where
  saved_data : SavedDataType
  replay_memory : ReplayMemory
deriving DecidableEq, Repr

/-- End of `QiskitSavedDataSamplingBackend.__init__`:
`self._saved_data = self._load_data(saved_data)` and
`self._replay_memory = {k: 0 for k in self._saved_data}`. -/
def initState (docs : List QiskitSavedDataSamplingJob) : BackendState :=
  let d := loadData docs
  { saved_data := d, replay_memory := d.map (fun p => (p.1, 0)) }

/-- The chunk loop of `QiskitSavedDataSamplingBackend.sample` (lines 126-136):
for each chunk size `s`, look the key `(qasm_str, s)` up in the corpus, read
the cursor, take the record at the cursor and advance the cursor by one;
raise on an absent key or an exhausted sequence.  A raise carries the cursor
map as mutated so far: increments already performed stay in place. -/
def sampleChunks (corpus : SavedDataType) (qasm : String) :
    List Int → ReplayMemory → List QiskitSavedDataSamplingJob →
    Except (SampleError × ReplayMemory)
      (List QiskitSavedDataSamplingJob × ReplayMemory)
  | [], mem, jobs => .ok (jobs, mem)
  | s :: rest, mem, jobs =>
    match lookupKey corpus (qasm, s) with
    | some records =>
      match lookupKey mem (qasm, s) with
      | some pos =>
        if h : pos < records.length then
          sampleChunks corpus qasm rest (bumpKey mem (qasm, s))
            (jobs ++ [records.get ⟨pos, h⟩])
        else .error (.replayExhausted, mem)
      | none => .error (.memKeyError, mem)
    | none => .error (.missingExperiment, mem)

/-- Python dict merge-with-add for histograms: add `v` to the count at `k`,
inserting the key if absent. -/
def addCount (h : List (String × Int)) (k : String) (v : Int) :
    List (String × Int) :=
  match h with
  | [] => [(k, v)]
  | p :: rest => if p.1 = k then (p.1, p.2 + v) :: rest else p :: addCount rest k v

/-- Sum a histogram's counts bitstring-wise into an accumulator. -/
def mergeHist (h1 h2 : List (String × Int)) : List (String × Int) :=
  h2.foldl (fun a p => addCount a p.1 p.2) h1

/-- Remap a bitstring's positions through a qubit mapping. -/
def remapBits (f : Nat → Nat) (s : String) : String :=
  String.mk ((List.range s.data.length).map (fun i => s.data.getD (f i) '0'))

/-- Modelled from the spec: the job/result post-processor `job_processor`
(in the repository's `.utils` module, not among the sources) merges the
per-chunk result histograms by summing counts per bitstring across chunks,
then applies the inverse qubit mapping, if one is configured, to every
outcome bitstring. -/
def job_processor (jobs : List QiskitSavedDataSamplingJob)
    (qubit_mapping : Option (Nat → Nat)) : List (String × Int) :=
  let merged := jobs.foldl (fun h j => mergeHist h j.saved_result.raw_data) []
  match qubit_mapping with
  | none => merged
  | some f => merged.map (fun p => (remapBits f p.1, p.2))

/-- Method `QiskitSavedDataSamplingBackend.sample` (lines 112-138).  The circuit
converter/transpiler collaborator is deterministic, so the call is modelled
by the canonical qasm string `qasm` of its transpiled circuit; `shot_dist`
is the chunk list returned by the external `shot_distributer` collaborator
for `n_shots` and the backend's shot bounds.  On success the result is the
merged histogram of the returned job together with the updated backend
state; on an exception it is the error together with the state as mutated up
to the raise. -/
def sample (st : BackendState) (qasm : String) (n_shots : Int)
    (shot_dist : List Int) (qubit_mapping : Option (Nat → Nat)) :
    Except (SampleError × BackendState) (List (String × Int) × BackendState) :=
  if n_shots ≥ 1 then
    match sampleChunks st.saved_data qasm shot_dist st.replay_memory [] with
    | .ok (jobs, mem) =>
      .ok (job_processor jobs qubit_mapping, { st with replay_memory := mem })
    | .error (e, mem) => .error (e, { st with replay_memory := mem })
  else .error (.invalidArgument, st)

/-- Shot-count bounds derived at `__init__` from the hardware descriptor:
the two supported qiskit descriptor variants, the older `BackendV1` (whose
`configuration().max_shots` the constructor reads) and the newer `BackendV2`
(carrying whatever shot limit the descriptor itself reports, which the
constructor never reads), plus the unsupported case. -/
inductive QiskitBackendDescriptor where
  | backendV1 (max_shots : Int)
  | backendV2 (reported_max_shots : Option Int)
  | unsupported
deriving DecidableEq, Repr

/-- Error `UnsupportedBackendError` (`BackendError("Backend not supported.")`). -/
inductive BackendInitError where
  | unsupportedBackend
deriving DecidableEq, Repr

/-- Lines 99-107 of `__init__`: `_min_shots = 1`; `_max_shots = None`, set
from `configuration().max_shots` when the descriptor is a `BackendV1` with a
positive limit; any descriptor that is neither variant raises. -/
def initShotBounds (b : QiskitBackendDescriptor) :
    Except BackendInitError (Int × Option Int) :=
  match b with
  | .backendV1 m => .ok (1, if m > 0 then some m else none)
  | .backendV2 _ => .ok (1, none)
  | .unsupported => .error .unsupportedBackend

/-- Modelled from the spec: the shot limit "reported by the hardware
descriptor" — the positive `max_shots` of the older variant, and the limit
the newer variant reports, if any. -/
def reportedLimit (b : QiskitBackendDescriptor) : Option Int :=
  match b with
  | .backendV1 m => if m > 0 then some m else none
  | .backendV2 o => o
  | .unsupported => none

/-- Sum of a histogram's counts. -/
def histSum (h : List (String × Int)) : Int :=
  (h.map Prod.snd).sum

/-- Sum of an integer-keyed histogram's counts. -/
def countsSum (h : List (Nat × Int)) : Int :=
  (h.map Prod.snd).sum

/-- Keys of an association list. -/
def keysOf {α : Type} (d : List (Key × α)) : List Key :=
  d.map Prod.fst

/-- Total of all replay cursors. -/
def totalCursor (mem : ReplayMemory) : Nat :=
  (mem.map Prod.snd).sum

/-- Executable per-state invariant: every cursor entry points into its key's
record sequence (value ≤ length) and every cursor key is a corpus key. -/
def cursorBound (st : BackendState) : Bool :=
  st.replay_memory.all (fun p =>
    match lookupKey st.saved_data p.1 with
    | some recs => p.2 ≤ recs.length
    | none => false)

/-- The cursor map left behind by the chunk loop, whether it returned or
raised. -/
def chunksMem (r : Except (SampleError × ReplayMemory)
    (List QiskitSavedDataSamplingJob × ReplayMemory)) : ReplayMemory :=
  match r with
  | .ok (_, mem) => mem
  | .error (_, mem) => mem

/-- The backend state after a `sample` call, whether it returned or raised:
the Python object keeps the mutations either way. -/
def resultState {A : Type}
    (r : Except (SampleError × BackendState) (A × BackendState)) :
    BackendState :=
  match r with
  | .ok (_, st) => st
  | .error (_, st) => st

/-- One single-chunk `sample` call on key `(qasm, s)` (its shot distribution
is the single chunk `[s]`), keeping the state it leaves behind. -/
def sampleStep (qasm : String) (s : Int) (qm : Option (Nat → Nat))
    (st : BackendState) : BackendState :=
  resultState (sample st qasm s [s] qm)

/-- A `sample` call as seen by the replay backend: the canonical qasm string
of the transpiled circuit, the requested shot count, and the chunk list the
shot distributor returns for it. -/
structure SampleCall where
  qasm : String
  n_shots : Int
  shot_dist : List Int
deriving Repr

/-- Run a sequence of `sample` calls, collecting every call's outcome
(returned histogram or raised error, with the state left behind). -/
def runCalls (qm : Option (Nat → Nat)) (st : BackendState) :
    List SampleCall →
    List (Except (SampleError × BackendState) (List (String × Int) × BackendState))
      × BackendState
  | [] => ([], st)
  | c :: rest =>
    let r := sample st c.qasm c.n_shots c.shot_dist qm
    let (outs, final) := runCalls qm (resultState r) rest
    (r :: outs, final)

/-- The records of a document carrying a given key, in document order. -/
def jobsWithKey (docs : List QiskitSavedDataSamplingJob) (k : Key) :
    List QiskitSavedDataSamplingJob :=
  docs.filter (fun j => j.key = k)

/-- Key/record-order-preserving equality of two corpus documents: for every
key, both documents carry the same records with that key in the same order
(hence the same keys, the same per-key record order and, the histograms
being part of the records, the same histograms). -/
def docEquiv (s t : List QiskitSavedDataSamplingJob) : Prop :=
  ∀ k, jobsWithKey s k = jobsWithKey t k

/-- Cursor map `m2` dominates `m1`: same keys in the same order, and no
cursor is smaller. -/
def memLE (m1 m2 : ReplayMemory) : Prop :=
  keysOf m1 = keysOf m2 ∧
    ∀ k c, lookupKey m1 k = some c → ∃ c', lookupKey m2 k = some c' ∧ c ≤ c'

/-- Grouped-corpus shape invariant established by `_load_data`: every record
sits in the group of its own key, and group keys are pairwise distinct. -/
def goodCorpus (d : SavedDataType) : Prop :=
  (∀ p ∈ d, ∀ j ∈ p.2, QiskitSavedDataSamplingJob.key j = p.1) ∧
    (keysOf d).Nodup

/-- Cursor-map bound relative to a corpus: every cursor entry's key is a
corpus key and its value stays within the key's record sequence. -/
def memBound (corpus : SavedDataType) (mem : ReplayMemory) : Bool :=
  mem.all (fun p =>
    match lookupKey corpus p.1 with
    | some recs => p.2 ≤ recs.length
    | none => false)

/-! ### Basic association-list lemmas -/

theorem lookupKey_bump_self (mem : ReplayMemory) (k : Key) :
    lookupKey (bumpKey mem k) k = (lookupKey mem k).map (· + 1) := by
  induction mem with
  | nil => rfl
  | cons p rest ih =>
    by_cases h : p.1 = k
    · simp [bumpKey, lookupKey, h]
    · simp [bumpKey, lookupKey, h, ih]

theorem lookupKey_bump_ne (mem : ReplayMemory) (k k' : Key) (h : k' ≠ k) :
    lookupKey (bumpKey mem k) k' = lookupKey mem k' := by
  induction mem with
  | nil => rfl
  | cons p rest ih =>
    by_cases hp : p.1 = k
    · have : p.1 ≠ k' := by rw [hp]; exact fun hk => h hk.symm
      simp [bumpKey, lookupKey, hp, this, Ne.symm h]
    · by_cases hp' : p.1 = k'
      · simp [bumpKey, lookupKey, hp, hp', h]
      · simp [bumpKey, lookupKey, hp, hp', ih]

theorem keysOf_bump (mem : ReplayMemory) (k : Key) :
    keysOf (bumpKey mem k) = keysOf mem := by
  induction mem with
  | nil => rfl
  | cons p rest ih =>
    by_cases h : p.1 = k
    · simp [bumpKey, keysOf, h]
    · simp only [bumpKey, if_neg h]
      simp [keysOf] at ih ⊢
      exact ih

theorem totalCursor_bump (mem : ReplayMemory) (k : Key)
    (h : (lookupKey mem k).isSome) :
    totalCursor (bumpKey mem k) = totalCursor mem + 1 := by
  induction mem with
  | nil => simp [lookupKey] at h
  | cons p rest ih =>
    by_cases hp : p.1 = k
    · simp [bumpKey, totalCursor, hp]
      omega
    · simp only [lookupKey, if_neg hp] at h
      have hrest := ih h
      simp only [bumpKey, if_neg hp]
      simp [totalCursor] at hrest ⊢
      omega

theorem memLE_refl (mem : ReplayMemory) : memLE mem mem :=
  ⟨rfl, fun _ c h => ⟨c, h, le_refl c⟩⟩

theorem memLE_trans {m1 m2 m3 : ReplayMemory} (h1 : memLE m1 m2)
    (h2 : memLE m2 m3) : memLE m1 m3 := by
  refine ⟨h1.1.trans h2.1, fun k c h => ?_⟩
  obtain ⟨c2, hc2, hle2⟩ := h1.2 k c h
  obtain ⟨c3, hc3, hle3⟩ := h2.2 k c2 hc2
  exact ⟨c3, hc3, hle2.trans hle3⟩

theorem memLE_bump (mem : ReplayMemory) (k : Key) :
    memLE mem (bumpKey mem k) := by
  refine ⟨(keysOf_bump mem k).symm, fun k' c h => ?_⟩
  by_cases hk : k' = k
  · subst hk
    refine ⟨c + 1, ?_, by omega⟩
    rw [lookupKey_bump_self, h]
    rfl
  · exact ⟨c, by rw [lookupKey_bump_ne mem k k' hk]; exact h, le_refl c⟩

/-! ### Step lemmas for the chunk loop and single-chunk calls -/

theorem sampleChunks_nil (corpus : SavedDataType) (qasm : String)
    (mem : ReplayMemory) (jobs : List QiskitSavedDataSamplingJob) :
    sampleChunks corpus qasm [] mem jobs = .ok (jobs, mem) := rfl

theorem sampleChunks_cons_ok {corpus : SavedDataType} {qasm : String}
    {s : Int} {rest : List Int} {mem : ReplayMemory}
    {jobs recs : List QiskitSavedDataSamplingJob} {pos : Nat}
    (hc : lookupKey corpus (qasm, s) = some recs)
    (hm : lookupKey mem (qasm, s) = some pos) (hpos : pos < recs.length) :
    sampleChunks corpus qasm (s :: rest) mem jobs =
      sampleChunks corpus qasm rest (bumpKey mem (qasm, s))
        (jobs ++ [recs.get ⟨pos, hpos⟩]) := by
  simp [sampleChunks, hc, hm, hpos]

theorem sampleChunks_cons_missing {corpus : SavedDataType} {qasm : String}
    {s : Int} {rest : List Int} {mem : ReplayMemory}
    {jobs : List QiskitSavedDataSamplingJob}
    (hc : lookupKey corpus (qasm, s) = none) :
    sampleChunks corpus qasm (s :: rest) mem jobs =
      .error (.missingExperiment, mem) := by
  simp [sampleChunks, hc]

theorem sampleChunks_cons_exhausted {corpus : SavedDataType} {qasm : String}
    {s : Int} {rest : List Int} {mem : ReplayMemory}
    {jobs recs : List QiskitSavedDataSamplingJob} {pos : Nat}
    (hc : lookupKey corpus (qasm, s) = some recs)
    (hm : lookupKey mem (qasm, s) = some pos) (hpos : recs.length ≤ pos) :
    sampleChunks corpus qasm (s :: rest) mem jobs =
      .error (.replayExhausted, mem) := by
  simp [sampleChunks, hc, hm]
  omega

theorem sample_single_ok {st : BackendState} {qasm : String} {s : Int}
    {recs : List QiskitSavedDataSamplingJob} {pos : Nat}
    (qm : Option (Nat → Nat))
    (hc : lookupKey st.saved_data (qasm, s) = some recs)
    (hm : lookupKey st.replay_memory (qasm, s) = some pos)
    (hpos : pos < recs.length) (hs : 1 ≤ s) :
    sample st qasm s [s] qm =
      .ok (job_processor [recs.get ⟨pos, hpos⟩] qm,
        { st with replay_memory := bumpKey st.replay_memory (qasm, s) }) := by
  unfold sample
  rw [if_pos hs, sampleChunks_cons_ok hc hm hpos, sampleChunks_nil]
  simp

theorem sample_single_exhausted {st : BackendState} {qasm : String} {s : Int}
    {recs : List QiskitSavedDataSamplingJob} {pos : Nat}
    (qm : Option (Nat → Nat))
    (hc : lookupKey st.saved_data (qasm, s) = some recs)
    (hm : lookupKey st.replay_memory (qasm, s) = some pos)
    (hpos : recs.length ≤ pos) (hs : 1 ≤ s) :
    sample st qasm s [s] qm = .error (.replayExhausted, st) := by
  unfold sample
  rw [if_pos hs, sampleChunks_cons_exhausted hc hm hpos]

/-! ### Histogram merging -/

theorem addCount_fresh (acc : List (String × Int)) (k : String) (v : Int)
    (h : k ∉ acc.map Prod.fst) :
    addCount acc k v = acc ++ [(k, v)] := by
  induction acc with
  | nil => rfl
  | cons p rest ih =>
    simp only [List.map_cons, List.mem_cons] at h
    push_neg at h
    have hne : p.1 ≠ k := fun hp => h.1 hp.symm
    simp [addCount, if_neg hne, ih h.2]

theorem mergeHist_fresh (h : List (String × Int)) :
    ∀ acc : List (String × Int), (h.map Prod.fst).Nodup →
      (∀ k ∈ h.map Prod.fst, k ∉ acc.map Prod.fst) →
      mergeHist acc h = acc ++ h := by
  induction h with
  | nil => intro acc _ _; simp [mergeHist]
  | cons p t ih =>
    intro acc hnd hdisj
    have hfresh : p.1 ∉ acc.map Prod.fst := hdisj p.1 (by simp)
    have step : mergeHist acc (p :: t) = mergeHist (acc ++ [(p.1, p.2)]) t := by
      simp [mergeHist, addCount_fresh acc p.1 p.2 hfresh]
    rw [step]
    simp only [List.map_cons, List.nodup_cons] at hnd
    have ht := ih (acc ++ [(p.1, p.2)]) hnd.2 (by
      intro k hk
      simp only [List.map_append, List.map_cons, List.map_nil, List.mem_append,
        List.mem_singleton]
      push_neg
      refine ⟨fun hka => hdisj k (by simp [hk]) hka, fun hkp => ?_⟩
      exact hnd.1 (hkp ▸ hk))
    rw [ht]
    simp

theorem job_processor_single (j : QiskitSavedDataSamplingJob)
    (hnd : (j.saved_result.raw_data.map Prod.fst).Nodup) :
    job_processor [j] none = j.saved_result.raw_data := by
  have h := mergeHist_fresh j.saved_result.raw_data [] hnd (by simp)
  simp [job_processor, h]

/-! ### Claim theorems (C1, C5) -/

/-- C1: for every corpus holding exactly one saved record under key
`(id, n)` and every `sample` call whose transpiled circuit's canonical
identifier is `id` and whose shot count `n` needs no splitting (the shot
distributor returns the single chunk `[n]`), the first such call (cursor
still at 0) returns a result whose histogram equals the stored record's
histogram exactly and whose counts sum to `n`.  The record is well formed
as the data model demands: distinct bitstring keys, counts summing to its
shot count. -/
theorem sample_single_record_replays_exact (st : BackendState) (qasm : String)
    (n : Int) (job : QiskitSavedDataSamplingJob)
    (hc : lookupKey st.saved_data (qasm, n) = some [job])
    (hm : lookupKey st.replay_memory (qasm, n) = some 0)
    (hnd : (job.saved_result.raw_data.map Prod.fst).Nodup)
    (hsum : histSum job.saved_result.raw_data = n)
    (hn : 1 ≤ n) :
    ∃ st2,
      sample st qasm n [n] none = .ok (job.result.raw_data, st2) ∧
        histSum job.result.raw_data = n := by
  refine ⟨{ st with replay_memory := bumpKey st.replay_memory (qasm, n) },
    ?_, hsum⟩
  rw [sample_single_ok none hc hm (by simp) hn]
  have h1 : job_processor [job] none = job.result.raw_data :=
    job_processor_single job hnd
  exact congrArg (fun h => Except.ok
    (h, { st with replay_memory := bumpKey st.replay_memory (qasm, n) })) h1

/-- Witness for C1: the spec's own scenario, a corpus with one record for
key `("abc", 100)` and histogram `{"000": 60, "111": 40}`. -/
theorem sample_single_record_replays_exact_witness :
    ∃ st2,
      sample (initState [⟨"abc", 100, ⟨[("000", 60), ("111", 40)]⟩⟩])
          "abc" 100 [100] none =
        .ok ((⟨"abc", 100, ⟨[("000", 60), ("111", 40)]⟩⟩ :
          QiskitSavedDataSamplingJob).result.raw_data, st2) ∧
        histSum (⟨"abc", 100, ⟨[("000", 60), ("111", 40)]⟩⟩ :
          QiskitSavedDataSamplingJob).result.raw_data = 100 :=
  sample_single_record_replays_exact _ "abc" 100 _ (by decide) (by decide)
    (by decide) (by decide) (by decide)

/-- C5: a `sample` call with a zero or negative requested shot count raises
the invalid-argument error before any corpus lookup or shot distribution
(the outcome does not depend on the corpus, the cursor map or the chunk
list), and leaves the backend state completely unchanged. -/
theorem sample_nonpositive_shots_invalid (st : BackendState) (qasm : String)
    (n : Int) (shot_dist : List Int) (qm : Option (Nat → Nat)) (hn : n ≤ 0) :
    sample st qasm n shot_dist qm = .error (.invalidArgument, st) := by
  unfold sample
  rw [if_neg (by omega)]

/-- Witness for C5 at `n_shots = 0` on a nonempty corpus. -/
theorem sample_nonpositive_shots_invalid_witness :
    sample (initState [⟨"abc", 100, ⟨[("000", 60), ("111", 40)]⟩⟩])
        "abc" 0 [5] none =
      .error (.invalidArgument,
        initState [⟨"abc", 100, ⟨[("000", 60), ("111", 40)]⟩⟩]) :=
  sample_nonpositive_shots_invalid _ "abc" 0 [5] none (by decide)

/-! ### Composition and monotonicity of the chunk loop -/

theorem sampleChunks_cons_keyerr {corpus : SavedDataType} {qasm : String}
    {s : Int} {rest : List Int} {mem : ReplayMemory}
    {jobs recs : List QiskitSavedDataSamplingJob}
    (hc : lookupKey corpus (qasm, s) = some recs)
    (hm : lookupKey mem (qasm, s) = none) :
    sampleChunks corpus qasm (s :: rest) mem jobs =
      .error (.memKeyError, mem) := by
  simp [sampleChunks, hc, hm]

theorem sampleChunks_append_ok (corpus : SavedDataType) (qasm : String)
    (l2 : List Int) :
    ∀ (l1 : List Int) (mem : ReplayMemory)
      (jobs jobs1 : List QiskitSavedDataSamplingJob) (mem1 : ReplayMemory),
      sampleChunks corpus qasm l1 mem jobs = .ok (jobs1, mem1) →
      sampleChunks corpus qasm (l1 ++ l2) mem jobs =
        sampleChunks corpus qasm l2 mem1 jobs1 := by
  intro l1
  induction l1 with
  | nil =>
    intro mem jobs jobs1 mem1 h
    rw [sampleChunks_nil] at h
    simp only [Except.ok.injEq, Prod.mk.injEq] at h
    rw [h.1, h.2]
    rfl
  | cons s t ih =>
    intro mem jobs jobs1 mem1 h
    simp only [List.cons_append]
    cases hc : lookupKey corpus (qasm, s) with
    | none =>
      rw [sampleChunks_cons_missing hc] at h
      exact absurd h (by simp)
    | some recs =>
      cases hm : lookupKey mem (qasm, s) with
      | none =>
        rw [sampleChunks_cons_keyerr hc hm] at h
        exact absurd h (by simp)
      | some pos =>
        by_cases hpos : pos < recs.length
        · rw [sampleChunks_cons_ok hc hm hpos] at h
          rw [sampleChunks_cons_ok hc hm hpos]
          exact ih _ _ _ _ h
        · rw [sampleChunks_cons_exhausted hc hm (by omega)] at h
          exact absurd h (by simp)

theorem sampleChunks_memLE (corpus : SavedDataType) (qasm : String) :
    ∀ (chunks : List Int) (mem : ReplayMemory)
      (jobs : List QiskitSavedDataSamplingJob),
      memLE mem (chunksMem (sampleChunks corpus qasm chunks mem jobs)) := by
  intro chunks
  induction chunks with
  | nil => intro mem jobs; exact memLE_refl mem
  | cons s t ih =>
    intro mem jobs
    cases hc : lookupKey corpus (qasm, s) with
    | none => rw [sampleChunks_cons_missing hc]; exact memLE_refl mem
    | some recs =>
      cases hm : lookupKey mem (qasm, s) with
      | none => rw [sampleChunks_cons_keyerr hc hm]; exact memLE_refl mem
      | some pos =>
        by_cases hpos : pos < recs.length
        · rw [sampleChunks_cons_ok hc hm hpos]
          exact memLE_trans (memLE_bump mem (qasm, s)) (ih _ _)
        · rw [sampleChunks_cons_exhausted hc hm (by omega)]
          exact memLE_refl mem

/-! ### Claim theorem C2 -/

/-- C2: a `sample` call whose chunk loop consumes the chunks of a prefix
`l1` successfully (reaching cursor map `mem1`) and then fails on a later
chunk of `l2` raises that chunk's error, and the state it leaves behind —
the state every subsequent call on this backend instance starts from —
carries the failing loop's final cursor map `mem2`, which dominates `mem1`:
the cursor increments already performed for the earlier chunks are not
rolled back. -/
theorem failed_call_keeps_earlier_cursor_increments
    (st : BackendState) (qasm : String) (n : Int) (l1 l2 : List Int)
    (jobs1 : List QiskitSavedDataSamplingJob) (mem1 mem2 : ReplayMemory)
    (e : SampleError) (qm : Option (Nat → Nat)) (hn : 1 ≤ n)
    (h1 : sampleChunks st.saved_data qasm l1 st.replay_memory [] =
      .ok (jobs1, mem1))
    (h2 : sampleChunks st.saved_data qasm l2 mem1 jobs1 = .error (e, mem2)) :
    sample st qasm n (l1 ++ l2) qm =
        .error (e, { st with replay_memory := mem2 }) ∧
      memLE mem1 mem2 := by
  constructor
  · unfold sample
    rw [if_pos hn,
      sampleChunks_append_ok st.saved_data qasm l2 l1 st.replay_memory []
        jobs1 mem1 h1, h2]
  · have h := sampleChunks_memLE st.saved_data qasm l2 mem1 jobs1
    rw [h2] at h
    exact h

/-- Witness for C2: the spec's scenario — 150 shots split as `[100, 50]`,
the corpus has the 100-chunk key only; the call fails with the missing-key
error and the cursor for the 100-chunk key stays advanced to 1. -/
theorem failed_call_keeps_earlier_cursor_increments_witness :
    sample (initState [⟨"q", 100, ⟨[("0", 100)]⟩⟩]) "q" 150
        ([100] ++ [50]) none =
        .error (.missingExperiment,
          { initState [⟨"q", 100, ⟨[("0", 100)]⟩⟩] with
              replay_memory := [(("q", 100), 1)] }) ∧
      memLE [(("q", 100), 1)] [(("q", 100), 1)] :=
  failed_call_keeps_earlier_cursor_increments
    (initState [⟨"q", 100, ⟨[("0", 100)]⟩⟩]) "q" 150 [100] [50]
    [⟨"q", 100, ⟨[("0", 100)]⟩⟩] [(("q", 100), 1)] [(("q", 100), 1)]
    .missingExperiment none (by decide) rfl rfl

/-! ### Iterated single-chunk calls (C3) -/

theorem iter_cursor (st : BackendState) (qasm : String) (s : Int)
    (qm : Option (Nat → Nat)) (recs : List QiskitSavedDataSamplingJob)
    (hc : lookupKey st.saved_data (qasm, s) = some recs)
    (hm : lookupKey st.replay_memory (qasm, s) = some 0) (hs : 1 ≤ s) :
    ∀ i, i ≤ recs.length →
      ((sampleStep qasm s qm)^[i] st).saved_data = st.saved_data ∧
        lookupKey ((sampleStep qasm s qm)^[i] st).replay_memory (qasm, s) =
          some i := by
  intro i
  induction i with
  | zero => intro _; exact ⟨rfl, hm⟩
  | succ i ih =>
    intro hle
    have hi := ih (by omega)
    rw [Function.iterate_succ_apply']
    have hci : lookupKey ((sampleStep qasm s qm)^[i] st).saved_data
        (qasm, s) = some recs := by rw [hi.1]; exact hc
    have hstep := sample_single_ok qm hci hi.2 (by omega) hs
    simp only [sampleStep, hstep, resultState]
    refine ⟨hi.1, ?_⟩
    rw [lookupKey_bump_self, hi.2]
    rfl

theorem iter_stall (st : BackendState) (qasm : String) (s : Int)
    (qm : Option (Nat → Nat)) (recs : List QiskitSavedDataSamplingJob)
    (hc : lookupKey st.saved_data (qasm, s) = some recs)
    (hm : lookupKey st.replay_memory (qasm, s) = some 0) (hs : 1 ≤ s) :
    ∀ i, recs.length ≤ i →
      (sampleStep qasm s qm)^[i] st =
        (sampleStep qasm s qm)^[recs.length] st := by
  intro i hle
  induction i, hle using Nat.le_induction with
  | base => rfl
  | succ i hle ih =>
    rw [Function.iterate_succ_apply', ih]
    have hml := iter_cursor st qasm s qm recs hc hm hs recs.length
      (le_refl _)
    have hcm : lookupKey ((sampleStep qasm s qm)^[recs.length] st).saved_data
        (qasm, s) = some recs := by rw [hml.1]; exact hc
    have hexh := sample_single_exhausted qm hcm hml.2 (le_refl _) hs
    simp only [sampleStep, hexh, resultState]

/-- C3: for a key recorded `m` times in the corpus (cursor starting at 0),
iterating single-chunk `sample` calls on that key succeeds on each of the
first `m` calls and fails with the replay-exhausted error on the
`(m+1)`-th call and on every later one — the error is raised exactly on
the excess calls, never on calls `1..m`. -/
theorem replay_exhausts_on_excess_call (st : BackendState) (qasm : String)
    (s : Int) (qm : Option (Nat → Nat))
    (recs : List QiskitSavedDataSamplingJob)
    (hc : lookupKey st.saved_data (qasm, s) = some recs)
    (hm : lookupKey st.replay_memory (qasm, s) = some 0) (hs : 1 ≤ s) :
    (∀ i < recs.length, ∃ out st2,
        sample ((sampleStep qasm s qm)^[i] st) qasm s [s] qm =
          .ok (out, st2)) ∧
      (∀ i, recs.length ≤ i →
        sample ((sampleStep qasm s qm)^[i] st) qasm s [s] qm =
          .error (.replayExhausted, (sampleStep qasm s qm)^[i] st)) := by
  constructor
  · intro i hi
    have h := iter_cursor st qasm s qm recs hc hm hs i (by omega)
    have hci : lookupKey ((sampleStep qasm s qm)^[i] st).saved_data
        (qasm, s) = some recs := by rw [h.1]; exact hc
    exact ⟨_, _, sample_single_ok qm hci h.2 hi hs⟩
  · intro i hi
    rw [iter_stall st qasm s qm recs hc hm hs i hi]
    have h := iter_cursor st qasm s qm recs hc hm hs recs.length (le_refl _)
    have hci : lookupKey
        ((sampleStep qasm s qm)^[recs.length] st).saved_data (qasm, s) =
          some recs := by rw [h.1]; exact hc
    exact sample_single_exhausted qm hci h.2 (le_refl _) hs

/-- Witness for C3: a key recorded once; the first call succeeds, the
second raises the replay-exhausted error. -/
theorem replay_exhausts_on_excess_call_witness :
    (∃ out st2,
        sample ((sampleStep "abc" 100 none)^[0]
            (initState [⟨"abc", 100, ⟨[("000", 60), ("111", 40)]⟩⟩]))
          "abc" 100 [100] none = .ok (out, st2)) ∧
      sample ((sampleStep "abc" 100 none)^[1]
          (initState [⟨"abc", 100, ⟨[("000", 60), ("111", 40)]⟩⟩]))
        "abc" 100 [100] none =
        .error (.replayExhausted, (sampleStep "abc" 100 none)^[1]
          (initState [⟨"abc", 100, ⟨[("000", 60), ("111", 40)]⟩⟩])) := by
  have h := replay_exhausts_on_excess_call
    (initState [⟨"abc", 100, ⟨[("000", 60), ("111", 40)]⟩⟩]) "abc" 100 none
    [⟨"abc", 100, ⟨[("000", 60), ("111", 40)]⟩⟩] (by decide) (by decide)
    (by decide)
  exact ⟨h.1 0 (by decide), h.2 1 (by decide)⟩

/-! ### Claim C4: missing chunk keys -/

/-- Counterexample to C4 as stated: a `sample` call can have a chunk whose
lookup key is absent from the corpus and still fail with the
replay-exhausted error rather than the missing-experiment error, because an
earlier chunk reuses a present key whose recorded sequence runs out first.
Here 250 shots are split as `[100, 100, 50]`, the corpus holds one record
for `("q", 100)` and nothing for `("q", 50)`: the call fails with
the replay-exhausted error on the second chunk. -/
theorem missing_key_not_always_missing_error :
    lookupKey (initState [⟨"q", 100, ⟨[("0", 100)]⟩⟩]).saved_data
        ("q", 50) = none ∧
      sample (initState [⟨"q", 100, ⟨[("0", 100)]⟩⟩]) "q" 250
          [100, 100, 50] none =
        .error (.replayExhausted,
          { initState [⟨"q", 100, ⟨[("0", 100)]⟩⟩] with
              replay_memory := [(("q", 100), 1)] }) :=
  ⟨by decide, rfl⟩

/-- C4 amended: for every `sample` call in which some chunk's lookup key is
absent from the corpus and every earlier chunk is consumed successfully,
the call fails with the missing-experiment error at that chunk, the whole
call is aborted and no partial job is returned; this holds for every
backend state, hence regardless of any prior calls. -/
theorem missing_key_aborts_call (st : BackendState) (qasm : String)
    (n : Int) (l1 : List Int) (s : Int) (l2 : List Int)
    (jobs1 : List QiskitSavedDataSamplingJob) (mem1 : ReplayMemory)
    (qm : Option (Nat → Nat)) (hn : 1 ≤ n)
    (h1 : sampleChunks st.saved_data qasm l1 st.replay_memory [] =
      .ok (jobs1, mem1))
    (hc : lookupKey st.saved_data (qasm, s) = none) :
    sample st qasm n (l1 ++ s :: l2) qm =
      .error (.missingExperiment, { st with replay_memory := mem1 }) := by
  unfold sample
  rw [if_pos hn,
    sampleChunks_append_ok st.saved_data qasm (s :: l2) l1 st.replay_memory
      [] jobs1 mem1 h1, sampleChunks_cons_missing hc]

/-- Witness for the amended C4: the spec's scenario — the corpus has no
record for key `("xyz", 50)`, so a 50-shot call on that circuit fails with
the missing-experiment error. -/
theorem missing_key_aborts_call_witness :
    sample (initState []) "xyz" 50 ([] ++ 50 :: []) none =
      .error (.missingExperiment,
        { initState [] with replay_memory := [] }) :=
  missing_key_aborts_call (initState []) "xyz" 50 [] 50 [] [] [] none
    (by decide) rfl (by decide)

/-! ### State invariants (C6) -/

theorem lookupKey_isSome_of_mem {α : Type} (d : List (Key × α)) (k : Key)
    (h : k ∈ keysOf d) : (lookupKey d k).isSome := by
  induction d with
  | nil => simp [keysOf] at h
  | cons p rest ih =>
    by_cases hp : p.1 = k
    · simp [lookupKey, hp]
    · have hk : k ∈ keysOf rest := by
        simp only [keysOf, List.map_cons, List.mem_cons] at h
        rcases h with h | h
        · exact absurd h.symm hp
        · exact h
      simp [lookupKey, hp, ih hk]

theorem lookupKey_init_zero (d : SavedDataType) (k : Key)
    (h : k ∈ keysOf d) :
    lookupKey (d.map (fun p => (p.1, (0 : Nat)))) k = some 0 := by
  induction d with
  | nil => simp [keysOf] at h
  | cons p rest ih =>
    by_cases hp : p.1 = k
    · simp [lookupKey, hp]
    · have hk : k ∈ keysOf rest := by
        simp only [keysOf, List.map_cons, List.mem_cons] at h
        rcases h with h | h
        · exact absurd h.symm hp
        · exact h
      simp [lookupKey, hp, ih hk]

theorem memBound_init (d : SavedDataType) :
    memBound d (d.map (fun p => (p.1, (0 : Nat)))) = true := by
  rw [memBound, List.all_eq_true]
  intro p hp
  simp only [List.mem_map] at hp
  obtain ⟨q, hq, rfl⟩ := hp
  have hk : q.1 ∈ keysOf d := by
    simp only [keysOf, List.mem_map]
    exact ⟨q, hq, rfl⟩
  have hsome := lookupKey_isSome_of_mem d q.1 hk
  cases hl : lookupKey d q.1 with
  | none => rw [hl] at hsome; cases hsome
  | some recs => simp [hl]

theorem memBound_bump (corpus : SavedDataType) (k : Key)
    (recs : List QiskitSavedDataSamplingJob) (pos : Nat)
    (hc : lookupKey corpus k = some recs) (hpos : pos < recs.length) :
    ∀ mem : ReplayMemory, memBound corpus mem = true →
      lookupKey mem k = some pos → memBound corpus (bumpKey mem k) = true := by
  intro mem
  induction mem with
  | nil => intro _ hm; cases hm
  | cons p rest ih =>
    intro hb hm
    by_cases hp : p.1 = k
    · simp only [lookupKey, if_pos hp] at hm
      have hp2 : p.2 = pos := by injection hm
      simp only [memBound, List.all_cons, Bool.and_eq_true] at hb
      simp only [bumpKey, if_pos hp, memBound, List.all_cons,
        Bool.and_eq_true]
      refine ⟨?_, hb.2⟩
      rw [hp, hc]
      simp
      omega
    · simp only [lookupKey, if_neg hp] at hm
      simp only [memBound, List.all_cons, Bool.and_eq_true] at hb
      simp only [bumpKey, if_neg hp, memBound, List.all_cons,
        Bool.and_eq_true]
      exact ⟨hb.1, ih hb.2 hm⟩

theorem sampleChunks_memBound (corpus : SavedDataType) (qasm : String) :
    ∀ (chunks : List Int) (mem : ReplayMemory)
      (jobs : List QiskitSavedDataSamplingJob),
      memBound corpus mem = true →
      memBound corpus (chunksMem (sampleChunks corpus qasm chunks mem jobs)) =
        true := by
  intro chunks
  induction chunks with
  | nil => intro mem jobs hb; exact hb
  | cons s t ih =>
    intro mem jobs hb
    cases hc : lookupKey corpus (qasm, s) with
    | none => rw [sampleChunks_cons_missing hc]; exact hb
    | some recs =>
      cases hm : lookupKey mem (qasm, s) with
      | none => rw [sampleChunks_cons_keyerr hc hm]; exact hb
      | some pos =>
        by_cases hpos : pos < recs.length
        · rw [sampleChunks_cons_ok hc hm hpos]
          exact ih _ _
            (memBound_bump corpus (qasm, s) recs pos hc hpos mem hb hm)
        · rw [sampleChunks_cons_exhausted hc hm (by omega)]; exact hb

theorem sampleChunks_total (corpus : SavedDataType) (qasm : String) :
    ∀ (chunks : List Int) (mem : ReplayMemory)
      (jobs jobs2 : List QiskitSavedDataSamplingJob) (mem2 : ReplayMemory),
      sampleChunks corpus qasm chunks mem jobs = .ok (jobs2, mem2) →
      totalCursor mem2 = totalCursor mem + chunks.length := by
  intro chunks
  induction chunks with
  | nil =>
    intro mem jobs jobs2 mem2 h
    rw [sampleChunks_nil] at h
    simp only [Except.ok.injEq, Prod.mk.injEq] at h
    rw [← h.2]
    simp
  | cons s t ih =>
    intro mem jobs jobs2 mem2 h
    cases hc : lookupKey corpus (qasm, s) with
    | none =>
      rw [sampleChunks_cons_missing hc] at h
      exact absurd h (by simp)
    | some recs =>
      cases hm : lookupKey mem (qasm, s) with
      | none =>
        rw [sampleChunks_cons_keyerr hc hm] at h
        exact absurd h (by simp)
      | some pos =>
        by_cases hpos : pos < recs.length
        · rw [sampleChunks_cons_ok hc hm hpos] at h
          rw [ih _ _ _ _ h, totalCursor_bump mem (qasm, s) (by rw [hm]; rfl)]
          simp only [List.length_cons]
          omega
        · rw [sampleChunks_cons_exhausted hc hm (by omega)] at h
          exact absurd h (by simp)

theorem sample_saved_data (st : BackendState) (qasm : String) (n : Int)
    (dist : List Int) (qm : Option (Nat → Nat)) :
    (resultState (sample st qasm n dist qm)).saved_data = st.saved_data := by
  unfold sample
  by_cases hn : 1 ≤ n
  · rw [if_pos hn]
    cases h : sampleChunks st.saved_data qasm dist st.replay_memory [] with
    | ok p => obtain ⟨jobs, mem⟩ := p; rfl
    | error p => obtain ⟨e, mem⟩ := p; rfl
  · rw [if_neg hn]; rfl

theorem sample_memLE (st : BackendState) (qasm : String) (n : Int)
    (dist : List Int) (qm : Option (Nat → Nat)) :
    memLE st.replay_memory
      (resultState (sample st qasm n dist qm)).replay_memory := by
  unfold sample
  by_cases hn : 1 ≤ n
  · rw [if_pos hn]
    have h := sampleChunks_memLE st.saved_data qasm dist st.replay_memory []
    cases hres : sampleChunks st.saved_data qasm dist st.replay_memory [] with
    | ok p => obtain ⟨jobs, mem⟩ := p; rw [hres] at h; exact h
    | error p => obtain ⟨e, mem⟩ := p; rw [hres] at h; exact h
  · rw [if_neg hn]; exact memLE_refl _

theorem sample_memBound (st : BackendState) (qasm : String) (n : Int)
    (dist : List Int) (qm : Option (Nat → Nat))
    (hb : memBound st.saved_data st.replay_memory = true) :
    memBound st.saved_data
      (resultState (sample st qasm n dist qm)).replay_memory = true := by
  unfold sample
  by_cases hn : 1 ≤ n
  · rw [if_pos hn]
    have h := sampleChunks_memBound st.saved_data qasm dist st.replay_memory
      [] hb
    cases hres : sampleChunks st.saved_data qasm dist st.replay_memory [] with
    | ok p => obtain ⟨jobs, mem⟩ := p; rw [hres] at h; exact h
    | error p => obtain ⟨e, mem⟩ := p; rw [hres] at h; exact h
  · rw [if_neg hn]; exact hb

/-- C6: the backend-state invariants.  At construction every cursor is 0
(one per corpus key) and within bounds; a `sample` call — successful or
failing — never modifies the corpus, never removes a cursor key, never
decrements a cursor, keeps every cursor within its key's record-sequence
length, and on success advances the cursors by exactly one per consumed
record (one record per chunk). -/
theorem backend_state_invariants :
    (∀ (docs : List QiskitSavedDataSamplingJob) (k : Key),
        k ∈ keysOf (initState docs).saved_data →
          lookupKey (initState docs).replay_memory k = some 0) ∧
      (∀ docs : List QiskitSavedDataSamplingJob,
        cursorBound (initState docs) = true) ∧
      (∀ (st : BackendState) (qasm : String) (n : Int) (dist : List Int)
          (qm : Option (Nat → Nat)),
        (resultState (sample st qasm n dist qm)).saved_data =
          st.saved_data) ∧
      (∀ (st : BackendState) (qasm : String) (n : Int) (dist : List Int)
          (qm : Option (Nat → Nat)),
        memLE st.replay_memory
          (resultState (sample st qasm n dist qm)).replay_memory) ∧
      (∀ (st : BackendState) (qasm : String) (n : Int) (dist : List Int)
          (qm : Option (Nat → Nat)),
        cursorBound st = true →
          cursorBound (resultState (sample st qasm n dist qm)) = true) ∧
      (∀ (st : BackendState) (qasm : String) (n : Int) (dist : List Int)
          (qm : Option (Nat → Nat)) out st2,
        sample st qasm n dist qm = .ok (out, st2) →
          totalCursor st2.replay_memory =
            totalCursor st.replay_memory + dist.length) := by
  refine ⟨?_, ?_, sample_saved_data, sample_memLE, ?_, ?_⟩
  · intro docs k hk
    exact lookupKey_init_zero (loadData docs) k hk
  · intro docs
    exact memBound_init (loadData docs)
  · intro st qasm n dist qm hb
    have e1 : cursorBound (resultState (sample st qasm n dist qm)) =
        memBound (resultState (sample st qasm n dist qm)).saved_data
          (resultState (sample st qasm n dist qm)).replay_memory := rfl
    rw [e1, sample_saved_data]
    exact sample_memBound st qasm n dist qm hb
  · intro st qasm n dist qm out st2 h
    unfold sample at h
    by_cases hn : 1 ≤ n
    · rw [if_pos hn] at h
      cases hres : sampleChunks st.saved_data qasm dist st.replay_memory []
        with
      | ok p =>
        obtain ⟨jobs, mem⟩ := p
        rw [hres] at h
        simp only [Except.ok.injEq, Prod.mk.injEq] at h
        rw [← h.2]
        exact sampleChunks_total st.saved_data qasm dist st.replay_memory []
          jobs mem hres
      | error p =>
        obtain ⟨e, mem⟩ := p
        rw [hres] at h
        exact absurd h (by simp)
    · rw [if_neg hn] at h
      exact absurd h (by simp)

/-- Witness for C6, instantiating the hypothesis-bearing conjuncts on a
one-record corpus and its first successful call. -/
theorem backend_state_invariants_witness :
    lookupKey
        (initState
          [⟨"abc", 100, ⟨[("000", 60), ("111", 40)]⟩⟩]).replay_memory
        ("abc", 100) = some 0 ∧
      cursorBound (resultState (sample
        (initState [⟨"abc", 100, ⟨[("000", 60), ("111", 40)]⟩⟩])
        "abc" 100 [100] none)) = true ∧
      totalCursor
          (⟨[(("abc", 100), [⟨"abc", 100, ⟨[("000", 60), ("111", 40)]⟩⟩])],
            [(("abc", 100), 1)]⟩ : BackendState).replay_memory =
        totalCursor
            (initState
              [⟨"abc", 100, ⟨[("000", 60), ("111", 40)]⟩⟩]).replay_memory +
          [(100 : Int)].length :=
  ⟨backend_state_invariants.1 _ ("abc", 100) (by decide),
    backend_state_invariants.2.2.2.2.1 _ "abc" 100 [100] none (by decide),
    backend_state_invariants.2.2.2.2.2 _ "abc" 100 [100] none
      [("000", 60), ("111", 40)] _ rfl⟩

/-! ### Round-trip of the corpus document (C7) -/

theorem lookupKey_appendAt_self (d : SavedDataType) (k : Key)
    (j : QiskitSavedDataSamplingJob) :
    lookupKey (appendAt d k j) k = some ((lookupKey d k).getD [] ++ [j]) := by
  induction d with
  | nil => simp [appendAt, lookupKey]
  | cons p rest ih =>
    by_cases hp : p.1 = k
    · simp [appendAt, lookupKey, hp]
    · simp [appendAt, lookupKey, hp, ih]

theorem lookupKey_appendAt_ne (d : SavedDataType) (k k' : Key)
    (j : QiskitSavedDataSamplingJob) (h : k' ≠ k) :
    lookupKey (appendAt d k j) k' = lookupKey d k' := by
  have hkk : k ≠ k' := fun hk => h hk.symm
  induction d with
  | nil => simp [appendAt, lookupKey, hkk]
  | cons p rest ih =>
    by_cases hp : p.1 = k
    · simp [appendAt, lookupKey, hp, hkk]
    · by_cases hp' : p.1 = k'
      · simp [appendAt, lookupKey, hp, hp', h]
      · simp [appendAt, lookupKey, hp, hp', ih]

theorem mem_keysOf_appendAt (d : SavedDataType) (k : Key)
    (j : QiskitSavedDataSamplingJob) (k' : Key) :
    k' ∈ keysOf (appendAt d k j) ↔ (k' ∈ keysOf d ∨ k' = k) := by
  induction d with
  | nil => simp [appendAt, keysOf]
  | cons p rest ih =>
    by_cases hp : p.1 = k
    · simp only [appendAt]
      rw [if_pos hp]
      simp only [keysOf, List.map_cons, List.mem_cons]
      constructor
      · rintro (h1 | h1)
        · exact Or.inl (Or.inl h1)
        · exact Or.inl (Or.inr h1)
      · rintro ((h1 | h1) | h1)
        · exact Or.inl h1
        · exact Or.inr h1
        · exact Or.inl (h1.trans hp.symm)
    · simp only [appendAt]
      rw [if_neg hp]
      simp only [keysOf, List.map_cons, List.mem_cons]
      simp only [keysOf] at ih
      rw [ih]
      tauto

theorem nodup_keysOf_appendAt (d : SavedDataType) (k : Key)
    (j : QiskitSavedDataSamplingJob) (h : (keysOf d).Nodup) :
    (keysOf (appendAt d k j)).Nodup := by
  induction d with
  | nil => simp [appendAt, keysOf]
  | cons p rest ih =>
    simp only [keysOf, List.map_cons, List.nodup_cons] at h
    by_cases hp : p.1 = k
    · simp only [appendAt]
      rw [if_pos hp]
      simp only [keysOf, List.map_cons, List.nodup_cons]
      exact ⟨h.1, h.2⟩
    · simp only [appendAt]
      rw [if_neg hp]
      simp only [keysOf, List.map_cons, List.nodup_cons]
      refine ⟨?_, ih h.2⟩
      intro hmem
      have := (mem_keysOf_appendAt rest k j p.1).mp (by
        simpa [keysOf] using hmem)
      rcases this with hin | heq
      · exact h.1 hin
      · exact hp heq

theorem jobsKeyed_appendAt :
    ∀ d : SavedDataType,
      (∀ p ∈ d, ∀ j' ∈ p.2, QiskitSavedDataSamplingJob.key j' = p.1) →
      ∀ j : QiskitSavedDataSamplingJob, ∀ p ∈ appendAt d j.key j,
        ∀ j' ∈ p.2, QiskitSavedDataSamplingJob.key j' = p.1 := by
  intro d
  induction d with
  | nil =>
    intro _ j p hp j' hj'
    simp only [appendAt, List.mem_singleton] at hp
    subst hp
    simp only [List.mem_singleton] at hj'
    subst hj'
    rfl
  | cons q rest ih =>
    intro hmem j p hp j' hj'
    by_cases hq : q.1 = j.key
    · simp only [appendAt] at hp
      rw [if_pos hq] at hp
      rcases List.mem_cons.mp hp with rfl | hp
      · simp only at hj'
        rcases List.mem_append.mp hj' with h1 | h1
        · exact hmem q (List.mem_cons_self _ _) j' h1
        · simp only [List.mem_singleton] at h1
          subst h1
          exact hq.symm
      · exact hmem p (List.mem_cons_of_mem _ hp) j' hj'
    · simp only [appendAt] at hp
      rw [if_neg hq] at hp
      rcases List.mem_cons.mp hp with rfl | hp
      · exact hmem p (List.mem_cons_self _ _) j' hj'
      · exact ih (fun r hr => hmem r (List.mem_cons_of_mem _ hr)) j p hp
          j' hj'

theorem goodCorpus_appendAt (d : SavedDataType)
    (j : QiskitSavedDataSamplingJob) (h : goodCorpus d) :
    goodCorpus (appendAt d j.key j) :=
  ⟨jobsKeyed_appendAt d h.1 j, nodup_keysOf_appendAt d j.key j h.2⟩

theorem loadAux_good :
    ∀ (docs : List QiskitSavedDataSamplingJob) (d : SavedDataType),
      goodCorpus d →
      goodCorpus (docs.foldl (fun d j => appendAt d j.key j) d) := by
  intro docs
  induction docs with
  | nil => intro d h; exact h
  | cons j t ih =>
    intro d h
    exact ih _ (goodCorpus_appendAt d j h)

theorem loadData_good (docs : List QiskitSavedDataSamplingJob) :
    goodCorpus (loadData docs) := by
  refine loadAux_good docs [] ⟨?_, ?_⟩
  · intro p hp
    cases hp
  · simp [keysOf]

theorem loadAux_lookup (k : Key) :
    ∀ (docs : List QiskitSavedDataSamplingJob) (d : SavedDataType),
      (lookupKey (docs.foldl (fun d j => appendAt d j.key j) d) k).getD [] =
        (lookupKey d k).getD [] ++ jobsWithKey docs k := by
  intro docs
  induction docs with
  | nil => intro d; simp [jobsWithKey]
  | cons j t ih =>
    intro d
    simp only [List.foldl_cons]
    rw [ih (appendAt d j.key j)]
    by_cases hk : j.key = k
    · rw [hk, lookupKey_appendAt_self]
      have hcons : jobsWithKey (j :: t) k = j :: jobsWithKey t k := by
        simp [jobsWithKey, hk]
      rw [hcons]
      simp
    · rw [lookupKey_appendAt_ne d j.key k j (fun h => hk h.symm)]
      have hcons : jobsWithKey (j :: t) k = jobsWithKey t k := by
        simp [jobsWithKey, hk]
      rw [hcons]

theorem export_filter_absent :
    ∀ d : SavedDataType,
      (∀ p ∈ d, ∀ j ∈ p.2, QiskitSavedDataSamplingJob.key j = p.1) →
      ∀ k : Key, k ∉ keysOf d → jobsWithKey (exportData d) k = [] := by
  intro d
  induction d with
  | nil => intro _ k _; rfl
  | cons p rest ih =>
    intro hmem k hk
    simp only [keysOf, List.map_cons, List.mem_cons] at hk
    push_neg at hk
    simp only [exportData, List.map_cons, List.flatten_cons]
    rw [jobsWithKey, List.filter_append]
    have h1 : (p.2.filter (fun j => j.key = k)) = [] := by
      rw [List.filter_eq_nil_iff]
      intro j hj
      have := hmem p (List.mem_cons_self _ _) j hj
      simp [QiskitSavedDataSamplingJob.key] at this ⊢
      rw [this]
      exact fun h => hk.1 h.symm
    rw [h1]
    have h2 := ih (fun r hr => hmem r (List.mem_cons_of_mem _ hr)) k
      (by simpa [keysOf] using hk.2)
    simpa [exportData, jobsWithKey] using h2

theorem export_filter :
    ∀ d : SavedDataType, goodCorpus d →
      ∀ k : Key, jobsWithKey (exportData d) k = (lookupKey d k).getD [] := by
  intro d
  induction d with
  | nil => intro _ k; rfl
  | cons p rest ih =>
    intro hg k
    obtain ⟨hmem, hnd⟩ := hg
    simp only [keysOf, List.map_cons, List.nodup_cons] at hnd
    have hgrest : goodCorpus rest :=
      ⟨fun r hr => hmem r (List.mem_cons_of_mem _ hr), hnd.2⟩
    simp only [exportData, List.map_cons, List.flatten_cons]
    rw [jobsWithKey, List.filter_append]
    by_cases hp : p.1 = k
    · have h1 : (p.2.filter (fun j => j.key = k)) = p.2 := by
        rw [List.filter_eq_self]
        intro j hj
        have := hmem p (List.mem_cons_self _ _) j hj
        simp [this, hp]
      have h2 : jobsWithKey (exportData rest) k = [] := by
        refine export_filter_absent rest hgrest.1 k ?_
        rw [← hp]
        simpa [keysOf] using hnd.1
      rw [h1]
      simp only [exportData, jobsWithKey] at h2
      rw [h2, lookupKey, if_pos hp]
      simp
    · have h1 : (p.2.filter (fun j => j.key = k)) = [] := by
        rw [List.filter_eq_nil_iff]
        intro j hj
        have := hmem p (List.mem_cons_self _ _) j hj
        simp [this, hp]
      rw [h1]
      have h2 := ih hgrest k
      simp only [exportData, jobsWithKey] at h2
      rw [h2, lookupKey, if_neg hp]
      simp

/-- C7: loading a corpus document and exporting the loaded corpus
reproduces an equivalent document — for every key, the same records with
that key in the same order (hence the same keys, the same per-key record
order and the same histograms), and the same set of keys. -/
theorem export_load_roundtrip (docs : List QiskitSavedDataSamplingJob) :
    docEquiv (exportData (loadData docs)) docs ∧
      ∀ k : Key,
        (k ∈ (exportData (loadData docs)).map
            QiskitSavedDataSamplingJob.key ↔
          k ∈ docs.map QiskitSavedDataSamplingJob.key) := by
  have hequiv : docEquiv (exportData (loadData docs)) docs := by
    intro k
    rw [export_filter (loadData docs) (loadData_good docs) k]
    have h := loadAux_lookup k docs []
    simpa [lookupKey] using h
  refine ⟨hequiv, fun k => ?_⟩
  have h := hequiv k
  constructor
  · intro hk
    obtain ⟨j, hj, hjk⟩ := List.mem_map.mp hk
    have hjin : j ∈ jobsWithKey (exportData (loadData docs)) k := by
      simp [jobsWithKey, List.mem_filter, hj, hjk]
    rw [h] at hjin
    simp only [jobsWithKey, List.mem_filter] at hjin
    exact List.mem_map.mpr ⟨j, hjin.1, by simpa using hjin.2⟩
  · intro hk
    obtain ⟨j, hj, hjk⟩ := List.mem_map.mp hk
    have hjin : j ∈ jobsWithKey docs k := by
      simp [jobsWithKey, List.mem_filter, hj, hjk]
    rw [← h] at hjin
    simp only [jobsWithKey, List.mem_filter] at hjin
    exact List.mem_map.mpr ⟨j, hjin.1, by simpa using hjin.2⟩

/-! ### Shot bounds (C8) -/

/-- Counterexample to C8 as stated: for a newer-variant (`BackendV2`)
descriptor reporting a shot limit of 100, the constructor still leaves the
maximum shot count unbounded — the claimed equality with the descriptor's
reported limit fails for the newer variant. -/
theorem max_shots_ignores_v2_limit :
    initShotBounds (.backendV2 (some 100)) = .ok (1, none) ∧
      reportedLimit (.backendV2 (some 100)) = some 100 ∧
      initShotBounds (.backendV2 (some 100)) ≠
        .ok (1, reportedLimit (.backendV2 (some 100))) :=
  ⟨rfl, rfl, by simp [initShotBounds, reportedLimit]⟩

/-- C8 amended: for every supported descriptor the minimum shot count is 1;
the maximum equals the limit reported by the descriptor for the older
variant (`BackendV1`, unbounded when its `max_shots` is not positive), but
is always unbounded for the newer variant (`BackendV2`), whose reported
limit the constructor never reads; an unsupported descriptor fails
construction. -/
theorem shot_bounds_from_descriptor :
    (∀ m : Int, initShotBounds (.backendV1 m) =
        .ok (1, reportedLimit (.backendV1 m))) ∧
      (∀ o : Option Int, initShotBounds (.backendV2 o) = .ok (1, none)) ∧
      initShotBounds .unsupported = .error .unsupportedBackend :=
  ⟨fun _ => rfl, fun _ => rfl, rfl⟩

/-! ### The counts property (C9) -/

theorem dictInsert_fresh {α β : Type} [DecidableEq α]
    (d : List (α × β)) (k : α) (v : β) (h : k ∉ d.map Prod.fst) :
    dictInsert d k v = d ++ [(k, v)] := by
  induction d with
  | nil => rfl
  | cons p rest ih =>
    simp only [List.map_cons, List.mem_cons] at h
    push_neg at h
    have hne : p.1 ≠ k := fun hp => h.1 hp.symm
    simp [dictInsert, if_neg hne, ih h.2]

theorem counts_fold_fresh (l : List (String × Int)) :
    ∀ acc : List (Nat × Int),
      ((l.map (fun p => binToNat p.1)).Nodup) →
      (∀ k ∈ l.map (fun p => binToNat p.1), k ∉ acc.map Prod.fst) →
      l.foldl (fun m p => dictInsert m (binToNat p.1) p.2) acc =
        acc ++ l.map (fun p => (binToNat p.1, p.2)) := by
  induction l with
  | nil => intro acc _ _; simp
  | cons p t ih =>
    intro acc hnd hdisj
    have hfresh : binToNat p.1 ∉ acc.map Prod.fst := hdisj _ (by simp)
    have step : (p :: t).foldl (fun m q => dictInsert m (binToNat q.1) q.2)
        acc = t.foldl (fun m q => dictInsert m (binToNat q.1) q.2)
          (acc ++ [(binToNat p.1, p.2)]) := by
      simp [dictInsert_fresh acc (binToNat p.1) p.2 hfresh]
    rw [step]
    simp only [List.map_cons, List.nodup_cons] at hnd
    have ht := ih (acc ++ [(binToNat p.1, p.2)]) hnd.2 (by
      intro k hk
      simp only [List.map_append, List.map_cons, List.map_nil,
        List.mem_append, List.mem_singleton]
      push_neg
      refine ⟨fun hka => hdisj k (by simp [hk]) hka, fun hkp => ?_⟩
      exact hnd.1 (hkp ▸ hk))
    rw [ht]
    simp

/-- C9: the `counts` property re-keys `raw_data` by reading each bitstring
key as a base-2 integer.  When the keys are pairwise distinct as base-2
integers, `counts` has exactly one entry per `raw_data` entry, preserving
every count and the total sum; two distinct bitstrings denoting the same
integer ("01" and "1") collapse to one entry, the later silently
overwriting the earlier, and the total shrinks. -/
theorem counts_rekeys_by_base2 :
    (∀ r : QiskitSavedDataSamplingResult,
        ((r.raw_data.map (fun p => binToNat p.1)).Nodup) →
          r.counts = r.raw_data.map (fun p => (binToNat p.1, p.2)) ∧
            r.counts.length = r.raw_data.length ∧
            countsSum r.counts = histSum r.raw_data) ∧
      (⟨[("01", 5), ("1", 3)]⟩ :
          QiskitSavedDataSamplingResult).counts = [(1, 3)] ∧
      countsSum (⟨[("01", 5), ("1", 3)]⟩ :
          QiskitSavedDataSamplingResult).counts <
        histSum [("01", 5), ("1", 3)] := by
  refine ⟨?_, by decide, by decide⟩
  intro r hnd
  have h := counts_fold_fresh r.raw_data [] hnd (by simp)
  have hc : r.counts = r.raw_data.map (fun p => (binToNat p.1, p.2)) := by
    rw [QiskitSavedDataSamplingResult.counts, h]
    simp
  refine ⟨hc, by rw [hc]; simp, ?_⟩
  rw [hc, countsSum, histSum, List.map_map]
  rfl

/-- Witness for C9 on a histogram whose keys are distinct as integers. -/
theorem counts_rekeys_by_base2_witness :
    (⟨[("00", 6), ("11", 4)]⟩ :
        QiskitSavedDataSamplingResult).counts =
        [("00", 6), ("11", 4)].map (fun p => (binToNat p.1, p.2)) ∧
      (⟨[("00", 6), ("11", 4)]⟩ :
          QiskitSavedDataSamplingResult).counts.length =
        ([("00", 6), ("11", 4)] : List (String × Int)).length ∧
      countsSum (⟨[("00", 6), ("11", 4)]⟩ :
          QiskitSavedDataSamplingResult).counts =
        histSum [("00", 6), ("11", 4)] :=
  counts_rekeys_by_base2.1 ⟨[("00", 6), ("11", 4)]⟩ (by decide)

/-! ### Determinism of replay (C10) -/

/-- C10: replay sampling is deterministic — two backend instances
constructed from the same corpus document, given the same sequence of
`sample` calls (same circuits, shot counts, distributor outputs and qubit
mapping), produce identical outcome sequences and identical final states;
the replay backend introduces no randomness: every call's outcome is a
function of the constructed state and the call sequence. -/
theorem replay_is_deterministic (docs : List QiskitSavedDataSamplingJob)
    (qm : Option (Nat → Nat)) (calls : List SampleCall)
    (st1 st2 : BackendState) (h1 : st1 = initState docs)
    (h2 : st2 = initState docs) :
    runCalls qm st1 calls = runCalls qm st2 calls := by
  subst h1
  subst h2
  rfl

/-- Witness for C10 on a one-record corpus and a one-call sequence. -/
theorem replay_is_deterministic_witness :
    runCalls none (initState [⟨"abc", 100, ⟨[("000", 60), ("111", 40)]⟩⟩])
        [⟨"abc", 100, [100]⟩] =
      runCalls none (initState [⟨"abc", 100, ⟨[("000", 60), ("111", 40)]⟩⟩])
        [⟨"abc", 100, [100]⟩] :=
  replay_is_deterministic [⟨"abc", 100, ⟨[("000", 60), ("111", 40)]⟩⟩]
    none [⟨"abc", 100, [100]⟩] _ _ rfl rfl

end ReplayBackend
